import Mathlib

/-!
Verification of the core logic of a PDF fuzzy-search web application
(custom-logic.js).

The program's text values (JavaScript strings) are modelled as lists of
characters; JavaScript numbers are modelled as an arbitrary linearly
ordered commutative ring (floating-point rounding is out of scope;
concrete evaluations instantiate the ring with the integers).  External
collaborators (the PDF decoder and the fuzzy-match engine) are modelled
as inputs: per-page text-content retrieval results, per-invocation
fuzzy result lists, and the viewport's corner transform.
-/

set_option autoImplicit false

abbrev Str := List Char

instance instDecidableEqExcept {ε β : Type} [DecidableEq ε] [DecidableEq β] :
    DecidableEq (Except ε β) := fun x y =>
  match x, y with
  | .ok a, .ok b =>
    match decEq a b with
    | isTrue h => isTrue (by rw [h])
    | isFalse h => isFalse (by intro hh; cases hh; exact h rfl)
  | .ok _, .error _ => isFalse (by intro hh; cases hh)
  | .error _, .ok _ => isFalse (by intro hh; cases hh)
  | .error a, .error b =>
    match decEq a b with
    | isTrue h => isTrue (by rw [h])
    | isFalse h => isFalse (by intro hh; cases hh; exact h rfl)

/-- Whitespace class of the JavaScript regular expression \s
(space, tab, line feed, vertical tab, form feed, carriage return,
no-break space, Unicode space separators, line/paragraph separators,
narrow no-break space, medium mathematical space, ideographic space,
byte-order mark). -/
def jsWs (c : Char) : Bool :=
  c.toNat = 32 || c.toNat = 9 || c.toNat = 10 || c.toNat = 11 ||
  c.toNat = 12 || c.toNat = 13 || c.toNat = 160 || c.toNat = 5760 ||
  (8192 ≤ c.toNat && c.toNat ≤ 8202) || c.toNat = 8232 ||
  c.toNat = 8233 || c.toNat = 8239 || c.toNat = 8287 ||
  c.toNat = 12288 || c.toNat = 65279

/-- Translation of the regular-expression replacement
text.replace(ws-run-regex, single-space): every maximal run of
whitespace characters is replaced by one space.  The boolean flag
records whether the previously seen character was whitespace. -/
def collapseWs : Bool → Str → Str
  | _, [] => []
  | prevWs, c :: rest =>
    if jsWs c then
      if prevWs then collapseWs true rest
      else ' ' :: collapseWs true rest
    else c :: collapseWs false rest

/-- JavaScript String.trimStart: drop leading whitespace. -/
def trimStart (l : Str) : Str := l.dropWhile jsWs

/-- JavaScript String.trimEnd: drop trailing whitespace. -/
def trimEnd : Str → Str
  | [] => []
  | c :: rest =>
    let r := trimEnd rest
    if r.isEmpty then (if jsWs c then [] else [c]) else c :: r

/-- JavaScript String.trim. -/
def jsTrim (l : Str) : Str := trimEnd (trimStart l)

/-- Normalization applied to every reconstructed line's text
(custom-logic.js line 122): collapse whitespace runs to a single
space, then trim. -/
def normText (l : Str) : Str := jsTrim (collapseWs false l)

/-- JavaScript String.toLowerCase, modelled per character. -/
def lowerStr (s : Str) : Str := s.map Char.toLower

/-- A positioned text fragment as produced by the decoder's
getTextContent: the item's string, the three used entries of its
affine transform (transform[3], transform[4] = x, transform[5] = y),
and its possibly-missing width and height. -/
structure TextFragment (α : Type) where
  str : Str
  transform3 : α
  transform4 : α
  transform5 : α
  width : Option α
  height : Option α
  deriving DecidableEq

variable {α : Type} [LinearOrderedCommRing α]

/-- Effective fragment width, custom-logic.js line 104:
item.width with a falsy fallback of 0. -/
def fragW (f : TextFragment α) : α := f.width.getD 0

/-- Effective fragment height, custom-logic.js line 105:
item.height when present, otherwise max(abs(transform[3]), 10). -/
def fragH (f : TextFragment α) : α := f.height.getD (max |f.transform3| 10)

/-- A reconstructed logical line with merged bounding geometry
(the elements of the corpus array). -/
structure Line (α : Type) where
  text : Str
  x : α
  y : α
  width : α
  height : α
  pageNum : ℕ
  deriving DecidableEq

/-- Fresh accumulator line started from one fragment
(custom-logic.js lines 108 and 116). -/
def startLine (p : ℕ) (f : TextFragment α) : Line α :=
  { text := f.str, x := f.transform4, y := f.transform5,
    width := fragW f, height := fragH f, pageNum := p }

/-- Merge one fragment into the current accumulator line
(custom-logic.js lines 110-113): the right edge becomes the larger of
the two right edges, the fragment's text is appended after a single
space, the height becomes the larger height. -/
def mergeLine (c : Line α) (f : TextFragment α) : Line α :=
  let rightEdge := max (c.x + c.width) (f.transform4 + fragW f)
  { c with
    width := rightEdge - c.x,
    text := c.text ++ ' ' :: f.str,
    height := max c.height (fragH f) }

/-- Line-reconstruction loop of extractTextCorpus
(custom-logic.js lines 98-119): iterate the fragments keeping one
current-line accumulator; a fragment within 3 document-space units of
the accumulator's y is merged, otherwise the accumulator is flushed
and a new one is started; the final accumulator is flushed after the
loop. -/
def reconLoop (p : ℕ) : Option (Line α) → List (TextFragment α) → List (Line α)
  | none, [] => []
  | some c, [] => [c]
  | none, f :: rest => reconLoop p (some (startLine p f)) rest
  | some c, f :: rest =>
    if |c.y - f.transform5| ≤ 3 then
      reconLoop p (some (mergeLine c f)) rest
    else
      c :: reconLoop p (some (startLine p f)) rest

/-- Per-page extraction (custom-logic.js lines 98-124): reconstruct
the lines, then normalize each line's text and drop lines whose
normalized text is empty. -/
def extractPage (p : ℕ) (items : List (TextFragment α)) : List (Line α) :=
  (reconLoop p none items).filterMap fun l =>
    let t := normText l.text
    if t.isEmpty then none else some { l with text := t }

/-- A loaded PDF document, as seen through the decoder interface:
for each page (in order) the result of fetching the page and its text
content, and the set of pages whose rasterization would succeed. -/
structure PdfDoc (α : Type) where
  pages : List (Except Unit (List (TextFragment α)))
  renderOkPages : List ℕ
  deriving DecidableEq

def PdfDoc.numPages (pdf : PdfDoc α) : ℕ := pdf.pages.length

/-- Page loop of extractTextCorpus (custom-logic.js lines 94-125),
numbering pages from i: a failing getPage/getTextContent aborts the
whole build. -/
def extractPages : ℕ → List (Except Unit (List (TextFragment α))) → Except Unit (List (Line α))
  | _, [] => .ok []
  | i, tc :: rest =>
    match tc with
    | .error e => .error e
    | .ok items =>
      match extractPages (i + 1) rest with
      | .error e => .error e
      | .ok out => .ok (extractPage i items ++ out)

/-- extractTextCorpus (custom-logic.js lines 92-127). -/
def extractTextCorpus (pdf : PdfDoc α) : Except Unit (List (Line α)) :=
  extractPages 1 pdf.pages

example : extractPage 1
    ([⟨['a'], 0, 0, 100, some 5, some 10⟩,
      ⟨['b'], 0, 20, 103, some 4, some 10⟩,
      ⟨['c'], 0, 0, 90, some 5, some 10⟩] : List (TextFragment ℤ)) =
    [{ text := ['a', ' ', 'b'], x := 0, y := 100, width := 24, height := 10, pageNum := 1 },
     { text := ['c'], x := 0, y := 90, width := 5, height := 10, pageNum := 1 }] := by
  decide

/-- Session state of the page: the mutable globals gPdf, corpus and
renderedPages (custom-logic.js lines 19-21) together with the
user-visible surfaces they drive — the page wrappers present in the
pdf-container element, the results panel, the status line and the
page-count display. -/
structure Session (α : Type) where
  gPdf : Option (PdfDoc α)
  corpus : List (Line α)
  renderedPages : List ℕ
  containerPages : List ℕ
  resultsHtml : String
  status : String
  pageCountText : String
  deriving DecidableEq

/-- clearAll (custom-logic.js lines 81-89). -/
def clearAll (_s : Session α) : Session α :=
  { gPdf := none,
    corpus := [],
    renderedPages := [],
    containerPages := [],
    resultsHtml := "No results yet.",
    status := "No PDF loaded.",
    pageCountText := "pages: ?" }

/-- A file handed to loadPdfFile: its name, its reported media type,
and the outcome the decoder would produce for its bytes. -/
structure UploadFile (α : Type) where
  name : String
  type : String
  decoded : Except Unit (PdfDoc α)
  deriving DecidableEq

/-- renderPage (custom-logic.js lines 130-171): skip when the page's
wrapper already exists; otherwise the wrapper is appended to the
container before rendering starts, and the page number is recorded in
renderedPages only when rasterization succeeds (a rendering failure is
caught and logged by ensurePageRendered's queue). -/
def renderPage (pdf : PdfDoc α) (n : ℕ) (s : Session α) : Session α :=
  if n ∈ s.containerPages then s
  else
    let s1 := { s with containerPages := s.containerPages ++ [n] }
    if n ∈ pdf.renderOkPages then
      { s1 with renderedPages := s1.renderedPages ++ [n] }
    else s1

/-- ensurePageRendered (custom-logic.js lines 174-180). -/
def ensurePageRendered (n : ℕ) (s : Session α) : Session α :=
  match s.gPdf with
  | none => s
  | some pdf => if n ∈ s.containerPages then s else renderPage pdf n s

/-- loadPdfFile (custom-logic.js lines 53-78).  A missing file is a
no-op; a file whose media type is not application/pdf is rejected with
an alert before any state change; otherwise the session is cleared and
the decode-extract-render pipeline runs inside a try block whose catch
only replaces the status message. -/
def loadPdfFile (file : Option (UploadFile α)) (s : Session α) : Session α :=
  match file with
  | none => s
  | some f =>
    if f.type ≠ "application/pdf" then s
    else
      let s1 := { clearAll s with status := "Reading " ++ f.name ++ "..." }
      match f.decoded with
      | .error _ => { s1 with status := "Error loading PDF. See console." }
      | .ok pdf =>
        let s2 := { s1 with
          gPdf := some pdf,
          pageCountText := "pages: " ++ toString pdf.numPages,
          status := "PDF loaded — " ++ toString pdf.numPages ++
            " pages. Extracting text (this may take a few seconds)..." }
        match extractTextCorpus pdf with
        | .error _ => { s2 with status := "Error loading PDF. See console." }
        | .ok c =>
          let s3 := { s2 with
            corpus := c,
            status := "Extracted " ++ toString c.length ++ " lines. Ready to search." }
          ensurePageRendered 1 s3

/-- One search hit as held in the results array: a corpus line and its
score (Fuse.js scores for fuzzy hits, the constant 1 for fallback
substring hits). -/
structure MatchResult (α : Type) where
  item : Line α
  score : ℚ
  deriving DecidableEq

/-- Result-collection step of runSearch (custom-logic.js lines
201-208): take the fuzzy engine's output; when it is empty, fall back
to scanning the corpus for lines whose lower-cased text contains the
lower-cased query as a contiguous substring, each hit scored 1. -/
def searchResults (fuzzy : List (MatchResult α)) (corpus : List (Line α)) (q : Str) :
    List (MatchResult α) :=
  if fuzzy.isEmpty then
    (corpus.map fun item => ({ item := item, score := 1 } : MatchResult α)).filter
      fun r => decide (lowerStr q <:+: lowerStr r.item.text)
  else fuzzy

/-- Display step of runSearch (custom-logic.js lines 210-219): with no
results the panel shows a no-matches message (modelled as none);
otherwise the first 30 results are handed to renderResults and the
status line reports the total match count. -/
def searchDisplay (fuzzy : List (MatchResult α)) (corpus : List (Line α)) (q : Str) :
    Option (List (MatchResult α) × ℕ) :=
  let results := searchResults fuzzy corpus q
  if results.isEmpty then none
  else some (results.take 30, results.length)

/-- A rectangle as handed to and returned by the viewport's
convertToViewportRectangle (entries rect[0]..rect[3]). -/
structure Rect4 (α : Type) where
  r0 : α
  r1 : α
  r2 : α
  r3 : α
  deriving DecidableEq

/-- A placed highlight element: its left/top/width/height styles. -/
structure HLRect (α : Type) where
  left : α
  top : α
  width : α
  height : α
  deriving DecidableEq

/-- Surface rectangle computed from the transformed rectangle
(custom-logic.js lines 267-270): per-axis minimum for left/top,
per-axis absolute difference for width/height. -/
def surfaceRect (r : Rect4 α) : HLRect α :=
  { left := min r.r0 r.r2,
    top := min r.r1 r.r3,
    width := |r.r0 - r.r2|,
    height := |r.r1 - r.r3| }

/-- Modelled from the spec: the decoder's
viewport.convertToViewportRectangle (pdf.js, not part of this
repository) transforms both corners of the document-space rectangle
with the viewport's point transform. -/
def convertToViewportRectangle (cnv : α × α → α × α) (x1 y1 x2 y2 : α) : Rect4 α :=
  { r0 := (cnv (x1, y1)).1,
    r1 := (cnv (x1, y1)).2,
    r2 := (cnv (x2, y2)).1,
    r3 := (cnv (x2, y2)).2 }

/-- highlightMatch (custom-logic.js lines 259-283), acting on the list
of highlight elements currently attached to the page's wrapper.  All
previous highlights are removed first; then the geometry mapping runs
in a try block: on success one highlight element is appended at the
computed rectangle (its later timed removal is outside this model), on
failure the catch only logs a warning.  The viewport's rectangle
conversion is modelled as a fallible function to capture a throwing
convertToViewportRectangle. -/
def highlightMatch (conv : Rect4 α → Except Unit (Rect4 α))
    (_existing : List (HLRect α)) (item : Line α) : List (HLRect α) :=
  let cleared : List (HLRect α) := []
  match conv ⟨item.x, item.y, item.x + item.width, item.y + item.height⟩ with
  | .error _ => cleared
  | .ok rect => cleared ++ [surfaceRect rect]

/-- Replacement for one character under the regular expression of
escapeHtml (custom-logic.js lines 254-256): the four significant
characters map to their entities, every other character is kept. -/
def escapeHtmlChar (c : Char) : Str :=
  if c = '&' then ['&', 'a', 'm', 'p', ';']
  else if c = '<' then ['&', 'l', 't', ';']
  else if c = '>' then ['&', 'g', 't', ';']
  else if c = Char.ofNat 34 then ['&', 'q', 'u', 'o', 't', ';']
  else [c]

/-- escapeHtml (custom-logic.js lines 254-256): a global
replace of the character class ampersand, less-than, greater-than,
double-quote by the mapped entities. -/
def escapeHtml (s : Str) : Str := s.flatMap escapeHtmlChar

/-! Specification-side helpers for reasoning about whitespace
normalization: splitting a string into its maximal whitespace-free
words.  These are proof devices; lemmas below tie them to the
source-translated collapseWs/trim functions. -/

/-- One step of word splitting, processing a character from the right:
a whitespace character opens a (possibly empty) new word boundary; a
non-whitespace character joins the current front word. -/
def wordsStep (c : Char) (acc : List Str) : List Str :=
  if jsWs c then [] :: acc
  else
    match acc with
    | [] => [[c]]
    | w :: rest => (c :: w) :: rest

/-- Word splitting folded from the right over an initial accumulator. -/
def wordsF (l : Str) (init : List Str) : List Str := l.foldr wordsStep init

/-- The maximal whitespace-free words of a string, in order. -/
def words (l : Str) : List Str := (wordsF l []).filter fun w => !w.isEmpty

/-- Join a list of strings with single spaces. -/
def joinSp (ts : List Str) : Str := List.intercalate [' '] ts

/-- Largest right edge (x + effective width) over the fragments
f0 :: g. -/
def maxRightEdge (f0 : TextFragment α) (g : List (TextFragment α)) : α :=
  g.foldl (fun m f => max m (f.transform4 + fragW f)) (f0.transform4 + fragW f0)

/-- Ghost-instrumented variant of reconLoop that carries, next to each
accumulator line, the list of fragments merged into it.  Projecting
the first components recovers reconLoop (proved below); the second
components partition the input fragments in order. -/
def reconLoopG (p : ℕ) :
    Option (Line α × List (TextFragment α)) → List (TextFragment α) →
      List (Line α × List (TextFragment α))
  | none, [] => []
  | some cg, [] => [cg]
  | none, f :: rest => reconLoopG p (some (startLine p f, [f])) rest
  | some (c, g), f :: rest =>
    if |c.y - f.transform5| ≤ 3 then
      reconLoopG p (some (mergeLine c f, g ++ [f])) rest
    else
      (c, g) :: reconLoopG p (some (startLine p f, [f])) rest

/-! Concrete instances used to witness the theorems below. -/

def wLineA : Line ℤ :=
  { text := ['a', 'l', 'p', 'h', 'a', ' ', 'B', 'e', 't', 'a'],
    x := 1, y := 2, width := 3, height := 4, pageNum := 1 }

def wLineB : Line ℤ :=
  { text := ['g', 'a', 'm', 'm', 'a'],
    x := 5, y := 6, width := 7, height := 8, pageNum := 2 }

def wCorpus : List (Line ℤ) := [wLineA, wLineB]

def wQ : Str := ['b', 'E', 't']

def wMR : MatchResult ℤ := { item := wLineA, score := 1 }

def wFuzzy31 : List (MatchResult ℤ) := List.replicate 31 wMR

def wBadFile : UploadFile ℤ :=
  { name := "notes.txt", type := "text/plain", decoded := .error () }

def wSessionFull : Session ℤ :=
  { gPdf := some { pages := [.ok []], renderOkPages := [1] },
    corpus := [wLineA],
    renderedPages := [1],
    containerPages := [1],
    resultsHtml := "old results",
    status := "old status",
    pageCountText := "pages: 1" }

def wEmptySession : Session ℤ :=
  { gPdf := none, corpus := [], renderedPages := [], containerPages := [],
    resultsHtml := "No results yet.", status := "No PDF loaded.",
    pageCountText := "pages: ?" }

/-- A document whose single page fails text-content retrieval. -/
def wBadPdf : PdfDoc ℤ := { pages := [.error ()], renderOkPages := [] }

def wPdfFile : UploadFile ℤ :=
  { name := "doc.pdf", type := "application/pdf", decoded := .ok wBadPdf }

def wConvFail : Rect4 ℤ → Except Unit (Rect4 ℤ) := fun _ => .error ()

def wFragA : TextFragment ℤ :=
  { str := ['o', 'n', 'e'], transform3 := 0, transform4 := 0, transform5 := 100,
    width := some 5, height := some 10 }

def wFragB : TextFragment ℤ :=
  { str := ['t', 'w', 'o'], transform3 := 0, transform4 := 20, transform5 := 103,
    width := some 4, height := some 10 }

def wFragC : TextFragment ℤ :=
  { str := ['l', 'o', 'w'], transform3 := 0, transform4 := 0, transform5 := 90,
    width := some 5, height := some 10 }

def wFrags : List (TextFragment ℤ) := [wFragA, wFragB, wFragC]

/-- The first logical line extracted from wFrags. -/
def wExtractedLine : Line ℤ :=
  { text := ['o', 'n', 'e', ' ', 't', 'w', 'o'], x := 0, y := 100, width := 24,
    height := 10, pageNum := 1 }

/-! Helper lemmas. -/

theorem map_filter_comm {β γ : Type} (g : β → γ) (pr : γ → Bool) :
    ∀ l : List β, (l.map g).filter pr = (l.filter fun a => pr (g a)).map g := by
  intro l
  induction l with
  | nil => rfl
  | cons a t ih =>
    simp only [List.map_cons, List.filter_cons]
    cases h : pr (g a) <;> simp [h, ih]

theorem escapeHtmlChar_no_raw (c : Char) :
    ∀ d ∈ escapeHtmlChar c, d ≠ '<' ∧ d ≠ '>' ∧ d ≠ Char.ofNat 34 := by
  intro d hd
  by_cases h1 : c = '&'
  · subst h1
    rw [show escapeHtmlChar '&' = ['&', 'a', 'm', 'p', ';'] from rfl] at hd
    simp only [List.mem_cons, List.not_mem_nil, or_false] at hd
    rcases hd with rfl | rfl | rfl | rfl | rfl <;> exact ⟨by decide, by decide, by decide⟩
  · by_cases h2 : c = '<'
    · subst h2
      rw [show escapeHtmlChar '<' = ['&', 'l', 't', ';'] from rfl] at hd
      simp only [List.mem_cons, List.not_mem_nil, or_false] at hd
      rcases hd with rfl | rfl | rfl | rfl <;> exact ⟨by decide, by decide, by decide⟩
    · by_cases h3 : c = '>'
      · subst h3
        rw [show escapeHtmlChar '>' = ['&', 'g', 't', ';'] from rfl] at hd
        simp only [List.mem_cons, List.not_mem_nil, or_false] at hd
        rcases hd with rfl | rfl | rfl | rfl <;> exact ⟨by decide, by decide, by decide⟩
      · by_cases h4 : c = Char.ofNat 34
        · subst h4
          rw [show escapeHtmlChar (Char.ofNat 34) = ['&', 'q', 'u', 'o', 't', ';'] from
            rfl] at hd
          simp only [List.mem_cons, List.not_mem_nil, or_false] at hd
          rcases hd with rfl | rfl | rfl | rfl | rfl | rfl <;>
            exact ⟨by decide, by decide, by decide⟩
        · have hc : escapeHtmlChar c = [c] := by
            unfold escapeHtmlChar
            rw [if_neg h1, if_neg h2, if_neg h3, if_neg h4]
          rw [hc] at hd
          simp only [List.mem_cons, List.not_mem_nil, or_false] at hd
          subst hd
          exact ⟨h2, h3, h4⟩

/-! Claims. -/

/-- C8: loading a file whose media type is not application/pdf is
rejected (with an alert, which is outside the session state) before
any state change: the whole pre-existing session — loaded document,
corpus, rendered-page set, container, displayed results, status and
page-count display — is returned untouched. -/
theorem claim_C8 (f : UploadFile α) (s : Session α)
    (h : f.type ≠ "application/pdf") :
    loadPdfFile (some f) s = s := by
  unfold loadPdfFile
  simp [h]

theorem claim_C8_witness : loadPdfFile (some wBadFile) wSessionFull = wSessionFull :=
  claim_C8 wBadFile wSessionFull (by decide)

/-- C9: in highlightMatch every previously placed highlight on the
target surface is removed before geometry mapping is attempted, so
when the rectangle conversion throws, the surface ends with zero
highlight elements; the failure is swallowed by the catch (the
function is total and returns a surface state). -/
theorem claim_C9 (conv : Rect4 α → Except Unit (Rect4 α))
    (existing : List (HLRect α)) (item : Line α)
    (h : conv ⟨item.x, item.y, item.x + item.width, item.y + item.height⟩ = .error ()) :
    highlightMatch conv existing item = [] := by
  unfold highlightMatch
  rw [h]

theorem claim_C9_witness :
    highlightMatch wConvFail [{ left := 1, top := 2, width := 3, height := 4 }] wLineA = [] :=
  claim_C9 wConvFail [{ left := 1, top := 2, width := 3, height := 4 }] wLineA rfl

/-- C6: for every document-space box and every viewport corner
transform, the mapper transforms both corners of the box and places a
highlight rectangle whose left/top are the per-axis minimum of the two
transformed corners and whose width/height are the per-axis absolute
difference; together with left + width = per-axis maximum (and
likewise for top + height) this makes the result the bounding
rectangle of the two transformed corners regardless of axis
direction. -/
theorem claim_C6 (cnv : α × α → α × α) (existing : List (HLRect α)) (item : Line α) :
    highlightMatch
        (fun r => .ok (convertToViewportRectangle cnv r.r0 r.r1 r.r2 r.r3))
        existing item
      = [{ left := min (cnv (item.x, item.y)).1 (cnv (item.x + item.width, item.y + item.height)).1,
           top := min (cnv (item.x, item.y)).2 (cnv (item.x + item.width, item.y + item.height)).2,
           width := |(cnv (item.x, item.y)).1 - (cnv (item.x + item.width, item.y + item.height)).1|,
           height := |(cnv (item.x, item.y)).2 - (cnv (item.x + item.width, item.y + item.height)).2| }]
    ∧ min (cnv (item.x, item.y)).1 (cnv (item.x + item.width, item.y + item.height)).1
        + |(cnv (item.x, item.y)).1 - (cnv (item.x + item.width, item.y + item.height)).1|
      = max (cnv (item.x, item.y)).1 (cnv (item.x + item.width, item.y + item.height)).1
    ∧ min (cnv (item.x, item.y)).2 (cnv (item.x + item.width, item.y + item.height)).2
        + |(cnv (item.x, item.y)).2 - (cnv (item.x + item.width, item.y + item.height)).2|
      = max (cnv (item.x, item.y)).2 (cnv (item.x + item.width, item.y + item.height)).2 := by
  have key : ∀ a b : α, min a b + |a - b| = max a b := by
    intro a b
    rcases le_total a b with h | h
    · rw [min_eq_left h, max_eq_right h, abs_of_nonpos (sub_nonpos.mpr h)]
      ring
    · rw [min_eq_right h, max_eq_left h, abs_of_nonneg (sub_nonneg.mpr h)]
      ring
  exact ⟨rfl, key _ _, key _ _⟩

/-- C2: one step of line reconstruction while an accumulator exists:
a fragment whose y differs from the accumulator's y by at most 3
document-space units is merged into the current line (text appended
after a single space, width extended to
max(current.x + current.width, x + w) - current.x, height extended to
max(current.height, h)); a fragment whose y differs by strictly more
than 3 flushes the accumulator and starts a new line from the
fragment. -/
theorem claim_C2 (p : ℕ) (c : Line α) (f : TextFragment α) (rest : List (TextFragment α)) :
    reconLoop p (some c) (f :: rest)
      = if |f.transform5 - c.y| ≤ 3 then
          reconLoop p (some
            { text := c.text ++ ' ' :: f.str, x := c.x, y := c.y,
              width := max (c.x + c.width) (f.transform4 + fragW f) - c.x,
              height := max c.height (fragH f), pageNum := c.pageNum }) rest
        else
          c :: reconLoop p (some
            { text := f.str, x := f.transform4, y := f.transform5,
              width := fragW f, height := fragH f, pageNum := p }) rest := by
  rw [reconLoop, abs_sub_comm]
  rfl

/-- C4: the substring fallback of runSearch activates exactly when the
fuzzy pass returns an empty result list; when it activates the result
is the corpus lines whose lower-cased text contains the lower-cased
query as a contiguous substring, in corpus order, each as a match
carrying the same sentinel score 1. -/
theorem claim_C4 (fuzzy : List (MatchResult α)) (corpus : List (Line α)) (q : Str) :
    (searchResults fuzzy corpus q
      = if fuzzy.isEmpty then
          (corpus.filter fun l => decide (lowerStr q <:+: lowerStr l.text)).map
            (fun l => ({ item := l, score := 1 } : MatchResult α))
        else fuzzy)
    ∧ (fuzzy = [] → ∀ r ∈ searchResults fuzzy corpus q, r.score = 1) := by
  have hmain : searchResults fuzzy corpus q
      = if fuzzy.isEmpty then
          (corpus.filter fun l => decide (lowerStr q <:+: lowerStr l.text)).map
            (fun l => ({ item := l, score := 1 } : MatchResult α))
        else fuzzy := by
    unfold searchResults
    cases h : fuzzy.isEmpty
    · simp [h]
    · simp only [h, if_pos]
      exact map_filter_comm _ _ corpus
  refine ⟨hmain, ?_⟩
  intro hf r hr
  subst hf
  rw [hmain] at hr
  simp only [List.isEmpty_nil, if_pos, List.mem_map] at hr
  obtain ⟨l, _, rfl⟩ := hr
  rfl

theorem claim_C4_witness :
    ({ item := wLineA, score := 1 } : MatchResult ℤ).score = 1 :=
  (claim_C4 [] wCorpus wQ).2 rfl _ (by decide)

/-- C5: whenever runSearch reaches the display step, the list handed
to the presentation layer is the first 30 results (hence at most 30),
while the count reported in the status line is the full number of
matches before capping. -/
theorem claim_C5 (fuzzy : List (MatchResult α)) (corpus : List (Line α)) (q : Str)
    (top : List (MatchResult α)) (n : ℕ)
    (h : searchDisplay fuzzy corpus q = some (top, n)) :
    top = (searchResults fuzzy corpus q).take 30
    ∧ top.length ≤ 30
    ∧ n = (searchResults fuzzy corpus q).length := by
  unfold searchDisplay at h
  by_cases he : (searchResults fuzzy corpus q).isEmpty
  · simp [he] at h
  · simp only [he, Bool.false_eq_true, if_false, Option.some.injEq, Prod.mk.injEq] at h
    obtain ⟨h1, h2⟩ := h
    refine ⟨h1.symm, ?_, h2.symm⟩
    rw [← h1]
    simp [List.length_take]

theorem claim_C5_witness :
    List.replicate 30 wMR = (searchResults wFuzzy31 wCorpus wQ).take 30
    ∧ (List.replicate 30 wMR).length ≤ 30
    ∧ 31 = (searchResults wFuzzy31 wCorpus wQ).length :=
  claim_C5 wFuzzy31 wCorpus wQ (List.replicate 30 wMR) 31 (by decide)

/-- C10 as stated is false: escapeHtml of a string containing an
ampersand yields an output that still contains the raw character
ampersand (as the first character of the inserted entity). -/
theorem claim_C10_counterexample : '&' ∈ escapeHtml ['&'] := by decide

/-- C10 (amended): escapeHtml replaces every occurrence of the four
characters ampersand, less-than, greater-than, double-quote with
their entities and leaves all other characters (including the single
quote) unchanged — it distributes over concatenation and acts
characterwise; the output contains no raw less-than, greater-than or
double-quote character (a raw ampersand can remain, as every inserted
entity begins with one). -/
theorem claim_C10 :
    (∀ c : Char, c ≠ '&' → c ≠ '<' → c ≠ '>' → c ≠ Char.ofNat 34 →
      escapeHtml [c] = [c])
    ∧ (∀ s t : Str, escapeHtml (s ++ t) = escapeHtml s ++ escapeHtml t)
    ∧ escapeHtml ['&'] = ['&', 'a', 'm', 'p', ';']
    ∧ escapeHtml ['<'] = ['&', 'l', 't', ';']
    ∧ escapeHtml ['>'] = ['&', 'g', 't', ';']
    ∧ escapeHtml [Char.ofNat 34] = ['&', 'q', 'u', 'o', 't', ';']
    ∧ escapeHtml [Char.ofNat 39] = [Char.ofNat 39]
    ∧ (∀ s : Str, ∀ c ∈ escapeHtml s, c ≠ '<' ∧ c ≠ '>' ∧ c ≠ Char.ofNat 34) := by
  refine ⟨?_, ?_, by decide, by decide, by decide, by decide, by decide, ?_⟩
  · intro c h1 h2 h3 h4
    simp [escapeHtml, escapeHtmlChar, h1, h2, h3, h4]
  · intro s t
    simp [escapeHtml]
  · intro s c hc
    unfold escapeHtml at hc
    rw [List.mem_flatMap] at hc
    obtain ⟨d, _, hd⟩ := hc
    exact escapeHtmlChar_no_raw d c hd

theorem claim_C10_witness :
    escapeHtml ['x'] = ['x']
    ∧ escapeHtml (['a'] ++ ['&']) = escapeHtml ['a'] ++ escapeHtml ['&'] :=
  ⟨claim_C10.1 'x' (by decide) (by decide) (by decide) (by decide),
   claim_C10.2.1 ['a'] ['&']⟩

/-- C1 as stated is false: when a page's text content cannot be
obtained, the catch in loadPdfFile only replaces the status message,
so the session still holds the decoded document — it is not left with
no loaded document. -/
theorem claim_C1_counterexample :
    (loadPdfFile (some wPdfFile) wEmptySession).gPdf ≠ none := by decide

theorem extractPages_error (l : List (Except Unit (List (TextFragment α))))
    (hmem : Except.error () ∈ l) : ∀ i, extractPages i l = Except.error () := by
  induction l with
  | nil => simp at hmem
  | cons tc rest ih =>
    intro i
    rcases List.mem_cons.mp hmem with heq | hmem'
    · rw [← heq]
      rfl
    · cases tc with
      | error e =>
        cases e
        rfl
      | ok items =>
        show (match extractPages (i + 1) rest with
          | .error e => .error e
          | .ok out => .ok (extractPage i items ++ out)) = Except.error ()
        rw [ih hmem' (i + 1)]

/-- C1 (amended): if obtaining any page's text content fails during
corpus building, the whole build aborts (extractTextCorpus fails)
with no partial corpus retained — the corpus stays empty, no page is
rendered, the results panel stays cleared and the user sees a
load-failure status — but the decoded document handle remains set in
the session, so the session is not reset to the no-loaded-document
state. -/
theorem claim_C1 (f : UploadFile α) (s : Session α) (pdf : PdfDoc α)
    (ht : f.type = "application/pdf") (hd : f.decoded = .ok pdf)
    (hpage : Except.error () ∈ pdf.pages) :
    extractTextCorpus pdf = .error ()
    ∧ (loadPdfFile (some f) s).corpus = []
    ∧ (loadPdfFile (some f) s).renderedPages = []
    ∧ (loadPdfFile (some f) s).containerPages = []
    ∧ (loadPdfFile (some f) s).resultsHtml = "No results yet."
    ∧ (loadPdfFile (some f) s).status = "Error loading PDF. See console."
    ∧ (loadPdfFile (some f) s).gPdf = some pdf := by
  have he : extractTextCorpus pdf = .error () := extractPages_error pdf.pages hpage 1
  refine ⟨he, ?_⟩
  unfold loadPdfFile
  simp [ht, hd, he, clearAll]

theorem claim_C1_witness :
    extractTextCorpus wBadPdf = .error ()
    ∧ (loadPdfFile (some wPdfFile) wEmptySession).corpus = []
    ∧ (loadPdfFile (some wPdfFile) wEmptySession).renderedPages = []
    ∧ (loadPdfFile (some wPdfFile) wEmptySession).containerPages = []
    ∧ (loadPdfFile (some wPdfFile) wEmptySession).resultsHtml = "No results yet."
    ∧ (loadPdfFile (some wPdfFile) wEmptySession).status = "Error loading PDF. See console."
    ∧ (loadPdfFile (some wPdfFile) wEmptySession).gPdf = some wBadPdf :=
  claim_C1 wPdfFile wEmptySession wBadPdf rfl rfl (by decide)

/-! Lemmas about word splitting. -/

theorem wordsStep_ne_nil (c : Char) (acc : List Str) : wordsStep c acc ≠ [] := by
  unfold wordsStep
  by_cases h : jsWs c <;> cases acc <;> simp [h]

theorem wordsF_cons (c : Char) (l : Str) (init : List Str) :
    wordsF (c :: l) init = wordsStep c (wordsF l init) := rfl

theorem wordsF_ne_nil (l : Str) (w : Str) (t : List Str) : wordsF l (w :: t) ≠ [] := by
  cases l with
  | nil => simp [wordsF]
  | cons c l' => rw [wordsF_cons]; exact wordsStep_ne_nil _ _

theorem wordsStep_append (c : Char) (A t : List Str) (h : A ≠ []) :
    wordsStep c (A ++ t) = wordsStep c A ++ t := by
  cases A with
  | nil => exact absurd rfl h
  | cons a A' => by_cases hc : jsWs c <;> simp [wordsStep, hc]

theorem wordsF_shift (l : Str) (w : Str) (t : List Str) :
    wordsF l (w :: t) = wordsF l [w] ++ t := by
  induction l with
  | nil => rfl
  | cons c l' ih =>
    rw [wordsF_cons, wordsF_cons, ih, wordsStep_append]
    exact wordsF_ne_nil l' w []

theorem wordsF_pad (a : Str) :
    wordsF a [[]] = wordsF a [] ++ [[]] ∨ wordsF a [[]] = wordsF a [] := by
  induction a with
  | nil => left; rfl
  | cons c a' ih =>
    rw [wordsF_cons, wordsF_cons]
    by_cases hc : jsWs c
    · rcases ih with h | h
      · left; rw [h]; simp [wordsStep, hc]
      · right; rw [h]
    · rcases ih with h | h
      · rw [h]
        cases hX : wordsF a' [] with
        | nil => right; simp [wordsStep, hc]
        | cons x X' => left; simp [wordsStep, hc]
      · right; rw [h]

theorem words_ws_cons (c : Char) (l : Str) (h : jsWs c = true) :
    words (c :: l) = words l := by
  unfold words
  rw [wordsF_cons]
  unfold wordsStep
  rw [if_pos h, List.filter_cons]
  simp

theorem words_append_ws (c : Char) (h : jsWs c = true) (a b : Str) :
    words (a ++ c :: b) = words a ++ words b := by
  have h0 : wordsF (c :: b) [] = [] :: wordsF b [] := by
    rw [wordsF_cons]
    unfold wordsStep
    rw [if_pos h]
  have h1 : wordsF (a ++ c :: b) [] = wordsF a ([] :: wordsF b []) := by
    unfold wordsF
    rw [List.foldr_append]
    unfold wordsF at h0
    rw [h0]
  unfold words
  rw [h1, wordsF_shift, List.filter_append]
  have h2 : (wordsF a [[]]).filter (fun w => !w.isEmpty)
      = (wordsF a []).filter (fun w => !w.isEmpty) := by
    rcases wordsF_pad a with hp | hp
    · rw [hp, List.filter_append]
      simp
    · rw [hp]
  rw [h2]

theorem wordsF_chars (l : Str) (init : List Str)
    (hinit : ∀ w ∈ init, ∀ c ∈ w, jsWs c = false) :
    ∀ w ∈ wordsF l init, ∀ c ∈ w, jsWs c = false := by
  induction l with
  | nil => exact hinit
  | cons c l' ih =>
    rw [wordsF_cons]
    intro w hw d hd
    unfold wordsStep at hw
    by_cases hc : jsWs c
    · rw [if_pos hc] at hw
      rcases List.mem_cons.mp hw with rfl | hw'
      · exact absurd hd (List.not_mem_nil d)
      · exact ih w hw' d hd
    · rw [if_neg hc] at hw
      cases hX : wordsF l' init with
      | nil =>
        rw [hX] at hw
        rcases List.mem_cons.mp hw with rfl | hw'
        · rcases List.mem_cons.mp hd with rfl | hd'
          · simpa using hc
          · exact absurd hd' (List.not_mem_nil d)
        · exact absurd hw' (List.not_mem_nil w)
      | cons x X' =>
        rw [hX] at hw
        rcases List.mem_cons.mp hw with rfl | hw'
        · rcases List.mem_cons.mp hd with rfl | hd'
          · simpa using hc
          · exact ih x (hX ▸ List.mem_cons_self x X') d hd'
        · exact ih w (hX ▸ List.mem_cons_of_mem x hw') d hd

theorem words_sound (l : Str) : ∀ w ∈ words l, w ≠ [] ∧ ∀ c ∈ w, jsWs c = false := by
  intro w hw
  unfold words at hw
  rw [List.mem_filter] at hw
  refine ⟨?_, wordsF_chars l [] (by simp) w hw.1⟩
  have hne := hw.2
  simpa using hne

/-! Lemmas about space-joining. -/

theorem joinSp_single (a : Str) : joinSp [a] = a := by
  simp [joinSp, List.intercalate]

theorem joinSp_cons (a : Str) (l : List Str) (h : l ≠ []) :
    joinSp (a :: l) = a ++ ' ' :: joinSp l := by
  cases l with
  | nil => exact absurd rfl h
  | cons b t =>
    simp [joinSp, List.intercalate]

theorem joinSp_ne_nil (l : List Str) (hne : l ≠ []) (h : ∀ w ∈ l, w ≠ []) :
    joinSp l ≠ [] := by
  cases l with
  | nil => exact absurd rfl hne
  | cons a t =>
    cases t with
    | nil => simpa [joinSp_single] using h a (by simp)
    | cons b t' =>
      rw [joinSp_cons _ _ (by simp)]
      simp

theorem joinSp_cons_cons (c : Char) (x : Str) (ts : List Str) :
    joinSp ((c :: x) :: ts) = c :: joinSp (x :: ts) := by
  cases ts with
  | nil => rw [joinSp_single, joinSp_single]
  | cons t ts' =>
    rw [joinSp_cons (c :: x) (t :: ts') (by simp), joinSp_cons x (t :: ts') (by simp)]
    rfl

theorem joinSp_glue (a b : Str) (ts : List Str) :
    joinSp ((a ++ ' ' :: b) :: ts) = joinSp (a :: b :: ts) := by
  cases ts with
  | nil => rw [joinSp_single, joinSp_cons a [b] (by simp), joinSp_single]
  | cons t ts' =>
    rw [joinSp_cons (a ++ ' ' :: b) (t :: ts') (by simp),
      joinSp_cons a (b :: t :: ts') (by simp), joinSp_cons b (t :: ts') (by simp)]
    simp

theorem joinSp_append (a b : List Str) (ha : a ≠ []) (hb : b ≠ []) :
    joinSp (a ++ b) = joinSp a ++ ' ' :: joinSp b := by
  induction a with
  | nil => exact absurd rfl ha
  | cons x a' ih =>
    cases a' with
    | nil =>
      rw [joinSp_single]
      exact joinSp_cons x b hb
    | cons y a'' =>
      have h1 : (y :: a'') ++ b ≠ [] := by simp
      rw [List.cons_append, joinSp_cons x ((y :: a'') ++ b) h1, ih (by simp),
        joinSp_cons x (y :: a'') (by simp)]
      simp

/-! Relating the source-translated normalization to word splitting. -/

theorem wordsF_nonws_head (d : Char) (r : Str) (hd : jsWs d = false) :
    ∃ w rest, wordsF (d :: r) [] = (d :: w) :: rest := by
  rw [wordsF_cons]
  unfold wordsStep
  rw [if_neg (by simp [hd])]
  cases wordsF r [] with
  | nil => exact ⟨[], [], rfl⟩
  | cons x X => exact ⟨x, X, rfl⟩

theorem words_cons_nonws_ws (c d : Char) (r : Str)
    (hc : jsWs c = false) (hd : jsWs d = true) :
    words (c :: d :: r) = [c] :: words r := by
  unfold words
  rw [wordsF_cons, wordsF_cons]
  unfold wordsStep
  rw [if_pos hd, if_neg (by simp [hc]), List.filter_cons]
  simp

theorem words_cons_nonws_ne (d : Char) (r : Str) (hd : jsWs d = false) :
    words (d :: r) ≠ [] := by
  obtain ⟨w, rest, hw⟩ := wordsF_nonws_head d r hd
  unfold words
  rw [hw, List.filter_cons]
  simp

theorem joinSp_words_cons_cons (c d : Char) (r : Str)
    (hc : jsWs c = false) (hd : jsWs d = false) :
    joinSp (words (c :: d :: r)) = c :: joinSp (words (d :: r)) := by
  obtain ⟨w, rest, hw⟩ := wordsF_nonws_head d r hd
  have h1 : wordsF (c :: d :: r) [] = (c :: d :: w) :: rest := by
    rw [wordsF_cons, hw]
    unfold wordsStep
    rw [if_neg (by simp [hc])]
  unfold words
  rw [h1, hw, List.filter_cons, List.filter_cons]
  simp only [List.isEmpty_cons, Bool.not_false, if_pos]
  exact joinSp_cons_cons c (d :: w) _

theorem collapse_true_dropWhile (l : Str) :
    (collapseWs true l).dropWhile jsWs = collapseWs true l := by
  induction l with
  | nil => rfl
  | cons c r ih =>
    by_cases hc : jsWs c = true
    · simpa [collapseWs, hc] using ih
    · simp [collapseWs, hc, List.dropWhile_cons]

theorem trimStart_collapse (l : Str) :
    trimStart (collapseWs false l) = collapseWs true l := by
  cases l with
  | nil => rfl
  | cons c r =>
    by_cases hc : jsWs c = true
    · show List.dropWhile jsWs (collapseWs false (c :: r)) = collapseWs true (c :: r)
      rw [show collapseWs false (c :: r) = ' ' :: collapseWs true r by simp [collapseWs, hc],
        show collapseWs true (c :: r) = collapseWs true r by simp [collapseWs, hc],
        List.dropWhile_cons]
      rw [if_pos (by decide)]
      exact collapse_true_dropWhile r
    · show List.dropWhile jsWs (collapseWs false (c :: r)) = collapseWs true (c :: r)
      rw [show collapseWs false (c :: r) = c :: collapseWs false r by simp [collapseWs, hc],
        show collapseWs true (c :: r) = c :: collapseWs false r by simp [collapseWs, hc],
        List.dropWhile_cons]
      simp [hc]

theorem trimEnd_cons (c : Char) (l : Str) :
    trimEnd (c :: l) =
      if (trimEnd l).isEmpty then (if jsWs c then [] else [c]) else c :: trimEnd l := rfl

theorem trimEnd_collapse_words (l : Str) :
    trimEnd (collapseWs true l) = joinSp (words l) := by
  induction l with
  | nil => rfl
  | cons c r ih =>
    by_cases hc : jsWs c = true
    · rw [show collapseWs true (c :: r) = collapseWs true r by simp [collapseWs, hc],
        words_ws_cons c r hc]
      exact ih
    · have hcf : jsWs c = false := by simpa using hc
      rw [show collapseWs true (c :: r) = c :: collapseWs false r by simp [collapseWs, hc]]
      cases r with
      | nil =>
        rw [show collapseWs false ([] : Str) = [] from rfl, trimEnd_cons]
        simp only [trimEnd, List.isEmpty_nil, if_pos, hcf, Bool.false_eq_true, if_false]
        rw [show words [c] = [[c]] by simp [words, wordsF, wordsStep, hcf], joinSp_single]
      | cons d r' =>
        by_cases hd : jsWs d = true
        · rw [show collapseWs false (d :: r') = ' ' :: collapseWs true r'
            by simp [collapseWs, hd]]
          have hir : trimEnd (collapseWs true r') = joinSp (words r') := by
            have h0 := ih
            rwa [show collapseWs true (d :: r') = collapseWs true r' by simp [collapseWs, hd],
              words_ws_cons d r' hd] at h0
          by_cases hjoin : joinSp (words r') = []
          · have hwr : words r' = [] := by
              by_contra hne
              exact joinSp_ne_nil (words r') hne (fun w hw => (words_sound r' w hw).1) hjoin
            have hinner : trimEnd (' ' :: collapseWs true r') = [] := by
              rw [trimEnd_cons, hir, hjoin]
              simp [show jsWs ' ' = true from rfl]
            rw [trimEnd_cons, hinner]
            rw [if_pos (by simp), if_neg (by simp [hcf])]
            rw [words_cons_nonws_ws c d r' hcf hd, hwr, joinSp_single]
          · have hwr : words r' ≠ [] := by
              intro hx
              rw [hx] at hjoin
              exact hjoin rfl
            have hinner : trimEnd (' ' :: collapseWs true r') = ' ' :: joinSp (words r') := by
              rw [trimEnd_cons, hir]
              rw [if_neg (by simpa using hjoin)]
            rw [trimEnd_cons, hinner]
            rw [if_neg (by simp)]
            rw [words_cons_nonws_ws c d r' hcf hd, joinSp_cons [c] (words r') hwr]
            rfl
        · have hdf : jsWs d = false := by simpa using hd
          rw [show collapseWs false (d :: r') = collapseWs true (d :: r')
            by simp [collapseWs, hd]]
          rw [trimEnd_cons, ih]
          have hne : words (d :: r') ≠ [] := words_cons_nonws_ne d r' hdf
          have hjoin : joinSp (words (d :: r')) ≠ [] :=
            joinSp_ne_nil _ hne (fun w hw => (words_sound _ w hw).1)
          rw [if_neg (by simpa using hjoin)]
          exact (joinSp_words_cons_cons c d r' hcf hdf).symm

theorem normText_words (l : Str) : normText l = joinSp (words l) := by
  unfold normText jsTrim
  rw [trimStart_collapse]
  exact trimEnd_collapse_words l

/-! Normalized text has no two adjacent whitespace characters. -/

theorem collapse_chain (l : Str) :
    (∀ c ∈ (collapseWs true l).head?, jsWs c = false)
    ∧ List.Chain' (fun a b => ¬(jsWs a = true ∧ jsWs b = true)) (collapseWs true l)
    ∧ List.Chain' (fun a b => ¬(jsWs a = true ∧ jsWs b = true)) (collapseWs false l) := by
  induction l with
  | nil => exact ⟨by simp [collapseWs], List.chain'_nil, List.chain'_nil⟩
  | cons c r ih =>
    obtain ⟨ih1, ih2, ih3⟩ := ih
    by_cases hc : jsWs c = true
    · have e1 : collapseWs true (c :: r) = collapseWs true r := by simp [collapseWs, hc]
      have e2 : collapseWs false (c :: r) = ' ' :: collapseWs true r := by
        simp [collapseWs, hc]
      refine ⟨by rw [e1]; exact ih1, by rw [e1]; exact ih2, ?_⟩
      rw [e2, List.chain'_cons']
      refine ⟨fun b hb => ?_, ih2⟩
      have hb' := ih1 b hb
      simp [hb']
    · have hcf : jsWs c = false := by simpa using hc
      have e1 : collapseWs true (c :: r) = c :: collapseWs false r := by simp [collapseWs, hc]
      have e2 : collapseWs false (c :: r) = c :: collapseWs false r := by simp [collapseWs, hc]
      have hch : List.Chain' (fun a b => ¬(jsWs a = true ∧ jsWs b = true))
          (c :: collapseWs false r) := by
        rw [List.chain'_cons']
        exact ⟨fun b _ => by simp [hcf], ih3⟩
      refine ⟨?_, by rw [e1]; exact hch, by rw [e2]; exact hch⟩
      rw [e1]
      intro x hx
      simp only [List.head?_cons, Option.mem_def, Option.some.injEq] at hx
      rw [← hx]
      exact hcf

theorem trimEnd_leading (l : Str) : trimEnd l <+: l := by
  induction l with
  | nil => simp [trimEnd]
  | cons c r ih =>
    rw [trimEnd_cons]
    by_cases h : (trimEnd r).isEmpty
    · rw [if_pos h]
      by_cases hc : jsWs c
      · rw [if_pos hc]
        exact List.nil_prefix
      · rw [if_neg hc]
        exact ⟨r, rfl⟩
    · rw [if_neg h]
      exact List.cons_prefix_cons.mpr ⟨rfl, ih⟩

theorem normText_eq_trimEnd (l : Str) : normText l = trimEnd (collapseWs true l) := by
  unfold normText jsTrim
  rw [trimStart_collapse]

theorem normText_chain (l : Str) :
    List.Chain' (fun a b => ¬(jsWs a = true ∧ jsWs b = true)) (normText l) := by
  rw [normText_eq_trimEnd]
  exact List.Chain'.prefix (collapse_chain l).2.1 (trimEnd_leading _)

/-! Reconstruction lemmas. -/

theorem reconLoop_some_ne_nil (p : ℕ) (frags : List (TextFragment α)) :
    ∀ c : Line α, reconLoop p (some c) frags ≠ [] := by
  induction frags with
  | nil => intro c; simp [reconLoop]
  | cons f rest ih =>
    intro c
    simp only [reconLoop]
    by_cases h : |c.y - f.transform5| ≤ 3
    · rw [if_pos h]
      exact ih _
    · rw [if_neg h]
      simp

theorem reconLoop_length (p : ℕ) (frags : List (TextFragment α)) :
    (∀ c : Line α, (reconLoop p (some c) frags).length ≤ frags.length + 1)
    ∧ (reconLoop p none frags).length ≤ frags.length := by
  induction frags with
  | nil => exact ⟨fun c => by simp [reconLoop], by simp [reconLoop]⟩
  | cons f rest ih =>
    refine ⟨fun c => ?_, ?_⟩
    · simp only [reconLoop]
      by_cases h : |c.y - f.transform5| ≤ 3
      · rw [if_pos h]
        exact le_trans (ih.1 _) (by simp)
      · rw [if_neg h]
        simpa using ih.1 _
    · simp only [reconLoop]
      simpa using ih.1 _

theorem reconLoop_join_some (p : ℕ) (frags : List (TextFragment α)) :
    ∀ c : Line α, joinSp ((reconLoop p (some c) frags).map Line.text)
      = joinSp (c.text :: frags.map TextFragment.str) := by
  induction frags with
  | nil => intro c; simp [reconLoop]
  | cons f rest ih =>
    intro c
    simp only [reconLoop]
    by_cases h : |c.y - f.transform5| ≤ 3
    · rw [if_pos h, ih (mergeLine c f)]
      show joinSp ((c.text ++ ' ' :: f.str) :: rest.map TextFragment.str)
        = joinSp (c.text :: (f :: rest).map TextFragment.str)
      rw [List.map_cons, joinSp_glue]
    · rw [if_neg h, List.map_cons]
      have hne : (reconLoop p (some (startLine p f)) rest).map Line.text ≠ [] := by
        simp [reconLoop_some_ne_nil]
      rw [joinSp_cons _ _ hne, ih (startLine p f), List.map_cons,
        joinSp_cons c.text (f.str :: rest.map TextFragment.str) (by simp)]
      rfl

theorem reconLoop_join_none (p : ℕ) (frags : List (TextFragment α)) :
    joinSp ((reconLoop p none frags).map Line.text)
      = joinSp (frags.map TextFragment.str) := by
  cases frags with
  | nil => rfl
  | cons f rest =>
    show joinSp ((reconLoop p (some (startLine p f)) rest).map Line.text) = _
    rw [reconLoop_join_some p rest (startLine p f)]
    rfl

theorem extractPage_texts (p : ℕ) (items : List (TextFragment α)) :
    (extractPage p items).map Line.text
      = (((reconLoop p none items).map Line.text).map normText).filter
          fun t => !t.isEmpty := by
  unfold extractPage
  generalize reconLoop p none items = L
  induction L with
  | nil => rfl
  | cons l L' ih =>
    simp only [List.filterMap_cons, List.map_cons, List.filter_cons]
    by_cases h : (normText l.text).isEmpty
    · simp [h] at ih ⊢
      exact ih
    · simp [h] at ih ⊢
      exact ih

theorem words_joinSp_flatten (ts : List Str) :
    words (joinSp ts) = (ts.map words).flatten := by
  induction ts with
  | nil => rfl
  | cons t ts' ih =>
    cases ts' with
    | nil => simp [joinSp_single]
    | cons u ts'' =>
      rw [joinSp_cons t (u :: ts'') (by simp),
        words_append_ws ' ' (by rfl) t (joinSp (u :: ts'')), ih]
      simp

theorem joinSp_filter_flatten (wss : List (List Str))
    (hne : ∀ ws ∈ wss, ∀ w ∈ ws, w ≠ []) :
    joinSp ((wss.map joinSp).filter fun t => !t.isEmpty) = joinSp wss.flatten := by
  induction wss with
  | nil => rfl
  | cons ws wss' ih =>
    have hws : ∀ w ∈ ws, w ≠ [] := hne ws (by simp)
    have hrec : ∀ w ∈ wss', ∀ x ∈ w, x ≠ [] := fun w hw => hne w (by simp [hw])
    rw [List.map_cons, List.filter_cons, List.flatten_cons]
    by_cases hempty : ws = []
    · subst hempty
      have hnil : joinSp ([] : List Str) = [] := rfl
      rw [if_neg (by simp [hnil])]
      rw [ih hrec]
      simp
    · have hjoin : joinSp ws ≠ [] := joinSp_ne_nil ws hempty hws
      rw [if_pos (by simpa using hjoin)]
      by_cases hflat : wss'.flatten = []
      · have h2 : joinSp ((wss'.map joinSp).filter fun t => !t.isEmpty) = [] := by
          rw [ih hrec, hflat]
          rfl
        have h3 : ((wss'.map joinSp).filter fun t => !t.isEmpty) = [] := by
          by_contra hX
          refine joinSp_ne_nil _ hX ?_ h2
          intro w hw
          have hcond := (List.mem_filter.mp hw).2
          simpa using hcond
        rw [h3, hflat, List.append_nil, joinSp_single]
      · have hflatwords : ∀ w ∈ wss'.flatten, w ≠ [] := by
          intro w hw
          obtain ⟨s, hs, hws'⟩ := List.mem_flatten.mp hw
          exact hrec s hs w hws'
        have h4 : ((wss'.map joinSp).filter fun t => !t.isEmpty) ≠ [] := by
          intro hX
          have h5 := ih hrec
          rw [hX] at h5
          exact joinSp_ne_nil _ hflat hflatwords h5.symm
        rw [joinSp_cons _ _ h4, ih hrec, joinSp_append ws wss'.flatten hempty hflat]

/-- C3: line reconstruction is order-preserving: the number of output
logical lines is at most the number of input fragments, and joining
the output line texts with single spaces reproduces exactly the
whitespace-normalization (whitespace runs collapsed to one space,
ends trimmed, empty lines dropped) of the space-joined input fragment
texts. -/
theorem claim_C3 (p : ℕ) (frags : List (TextFragment α)) :
    (extractPage p frags).length ≤ frags.length
    ∧ joinSp ((extractPage p frags).map Line.text)
      = normText (joinSp (frags.map TextFragment.str)) := by
  constructor
  · exact le_trans (List.length_filterMap_le _ _) (reconLoop_length p frags).2
  · rw [extractPage_texts]
    have hmm : ∀ T : List Str, T.map normText = (T.map words).map joinSp := by
      intro T
      rw [List.map_map]
      exact List.map_congr_left fun t _ => normText_words t
    rw [hmm ((reconLoop p none frags).map Line.text), joinSp_filter_flatten]
    · rw [← words_joinSp_flatten, ← normText_words, reconLoop_join_none]
    · intro ws hws w hw
      obtain ⟨t, _, rfl⟩ := List.mem_map.mp hws
      exact (words_sound t w hw).1

/-! Ghost-instrumentation lemmas for the geometry invariants. -/

theorem reconLoopG_fst (p : ℕ) (frags : List (TextFragment α)) :
    ∀ cur : Option (Line α × List (TextFragment α)),
      (reconLoopG p cur frags).map Prod.fst = reconLoop p (cur.map Prod.fst) frags := by
  induction frags with
  | nil =>
    intro cur
    rcases cur with _ | ⟨c, g⟩ <;> simp [reconLoopG, reconLoop]
  | cons f rest ih =>
    intro cur
    rcases cur with _ | ⟨c, g⟩
    · show (reconLoopG p (some (startLine p f, [f])) rest).map Prod.fst = _
      rw [ih]
      rfl
    · show (reconLoopG p (some (c, g)) (f :: rest)).map Prod.fst
        = reconLoop p (some c) (f :: rest)
      simp only [reconLoopG, reconLoop]
      by_cases h : |c.y - f.transform5| ≤ 3
      · rw [if_pos h, if_pos h, ih]
        rfl
      · rw [if_neg h, if_neg h, List.map_cons, ih]
        rfl

theorem reconLoopG_flatten (p : ℕ) (frags : List (TextFragment α)) :
    (∀ (c : Line α) (g : List (TextFragment α)),
      ((reconLoopG p (some (c, g)) frags).map Prod.snd).flatten = g ++ frags)
    ∧ ((reconLoopG p none frags).map Prod.snd).flatten = frags := by
  induction frags with
  | nil =>
    refine ⟨fun c g => ?_, by simp [reconLoopG]⟩
    simp [reconLoopG]
  | cons f rest ih =>
    refine ⟨fun c g => ?_, ?_⟩
    · simp only [reconLoopG]
      by_cases h : |c.y - f.transform5| ≤ 3
      · rw [if_pos h, ih.1 (mergeLine c f) (g ++ [f])]
        simp
      · rw [if_neg h, List.map_cons, List.flatten_cons, ih.1 (startLine p f) [f]]
        simp
    · show ((reconLoopG p (some (startLine p f, [f])) rest).map Prod.snd).flatten = f :: rest
      rw [ih.1 (startLine p f) [f]]
      rfl

theorem foldl_max_spec (e : TextFragment α → α) (l : List (TextFragment α)) :
    ∀ init : α,
      init ≤ l.foldl (fun m x => max m (e x)) init
      ∧ (∀ x ∈ l, e x ≤ l.foldl (fun m x => max m (e x)) init)
      ∧ (l.foldl (fun m x => max m (e x)) init = init
          ∨ ∃ x ∈ l, l.foldl (fun m x => max m (e x)) init = e x) := by
  induction l with
  | nil => exact fun init => ⟨le_refl _, by simp, Or.inl rfl⟩
  | cons f t ih =>
    intro init
    simp only [List.foldl_cons]
    obtain ⟨h1, h2, h3⟩ := ih (max init (e f))
    refine ⟨le_trans (le_max_left _ _) h1, ?_, ?_⟩
    · intro x hx
      rcases List.mem_cons.mp hx with rfl | hx'
      · exact le_trans (le_max_right _ _) h1
      · exact h2 x hx'
    · rcases h3 with h | ⟨x, hx, hfx⟩
      · rcases max_choice init (e f) with hm | hm
        · left
          rw [h, hm]
        · right
          exact ⟨f, by simp, by rw [h, hm]⟩
      · right
        exact ⟨x, by simp [hx], hfx⟩

theorem reconLoopG_good (p : ℕ) (frags : List (TextFragment α)) :
    ∀ cur : Option (Line α × List (TextFragment α)),
      (∀ c g, cur = some (c, g) →
        ∃ f0 gt, g = f0 :: gt ∧ c.x = f0.transform4 ∧ c.y = f0.transform5
          ∧ c.x + c.width = maxRightEdge f0 gt) →
      ∀ L G, (L, G) ∈ reconLoopG p cur frags →
        ∃ f0 gt, G = f0 :: gt ∧ L.x = f0.transform4 ∧ L.y = f0.transform5
          ∧ L.x + L.width = maxRightEdge f0 gt := by
  have hstartgood : ∀ f : TextFragment α, ∀ c g, some (startLine p f, [f]) = some (c, g) →
      ∃ f0 gt, g = f0 :: gt ∧ c.x = f0.transform4 ∧ c.y = f0.transform5
        ∧ c.x + c.width = maxRightEdge f0 gt := by
    intro f c g heq
    injection heq with h
    injection h with h1 h2
    subst h1
    subst h2
    exact ⟨f, [], rfl, rfl, rfl, rfl⟩
  induction frags with
  | nil =>
    intro cur hcur L G hLG
    rcases cur with _ | ⟨c, g⟩
    · simp [reconLoopG] at hLG
    · simp only [reconLoopG, List.mem_singleton] at hLG
      injection hLG with h1 h2
      subst h1
      subst h2
      exact hcur L G rfl
  | cons f rest ih =>
    intro cur hcur L G hLG
    rcases cur with _ | ⟨c, g⟩
    · exact ih (some (startLine p f, [f])) (hstartgood f) L G hLG
    · simp only [reconLoopG] at hLG
      by_cases h : |c.y - f.transform5| ≤ 3
      · rw [if_pos h] at hLG
        refine ih (some (mergeLine c f, g ++ [f])) ?_ L G hLG
        intro c' g' heq
        injection heq with h0
        injection h0 with h1 h2
        subst h1
        subst h2
        obtain ⟨f0, gt, rfl, hx, hy, hxw⟩ := hcur c g rfl
        refine ⟨f0, gt ++ [f], by simp, hx, hy, ?_⟩
        have hme : maxRightEdge f0 (gt ++ [f])
            = max (maxRightEdge f0 gt) (f.transform4 + fragW f) := by
          unfold maxRightEdge
          rw [List.foldl_append]
          rfl
        have hmw : (mergeLine c f).x + (mergeLine c f).width
            = max (c.x + c.width) (f.transform4 + fragW f) := by
          show c.x + (max (c.x + c.width) (f.transform4 + fragW f) - c.x) = _
          ring
        rw [hmw, hme, hxw]
      · rw [if_neg h] at hLG
        rcases List.mem_cons.mp hLG with heq | hmem
        · injection heq with h1 h2
          subst h1
          subst h2
          exact hcur L G rfl
        · exact ih (some (startLine p f, [f])) (hstartgood f) L G hmem

theorem extractPage_mem (p : ℕ) (items : List (TextFragment α)) (L : Line α)
    (hL : L ∈ extractPage p items) :
    ∃ Lr ∈ reconLoop p none items, L.x = Lr.x ∧ L.y = Lr.y ∧ L.width = Lr.width
      ∧ L.text = normText Lr.text ∧ L.text ≠ [] := by
  unfold extractPage at hL
  obtain ⟨Lr, hmem, hsome⟩ := List.mem_filterMap.mp hL
  refine ⟨Lr, hmem, ?_⟩
  by_cases h : (normText Lr.text).isEmpty
  · simp [h] at hsome
  · have hsome' :
        (if (normText Lr.text).isEmpty = true then none else some { text := normText Lr.text, x := Lr.x, y := Lr.y, width := Lr.width, height := Lr.height, pageNum := Lr.pageNum }) = some L :=
      hsome
    rw [if_neg (by simpa using h)] at hsome'
    injection hsome' with hLr
    subst hLr
    refine ⟨rfl, rfl, rfl, rfl, ?_⟩
    simpa using h

/-- C7: every logical line of the extracted corpus has non-empty text
with no two adjacent whitespace characters; the ghost-instrumented
reconstruction (whose line projection provably equals reconLoop and
whose fragment groups partition the input in order) shows that each
line carries the x and y of the first fragment merged into it and
that its right edge x + width is the maximum of the merged fragments'
right edges (it bounds them all and is attained by one of them); in
particular width is non-negative whenever all fragment widths are. -/
theorem claim_C7 (p : ℕ) (frags : List (TextFragment α)) :
    (∀ L ∈ extractPage p frags, L.text ≠ []
      ∧ List.Chain' (fun a b => ¬(jsWs a = true ∧ jsWs b = true)) L.text)
    ∧ (reconLoopG p none frags).map Prod.fst = reconLoop p none frags
    ∧ ((reconLoopG p none frags).map Prod.snd).flatten = frags
    ∧ (∀ L G, (L, G) ∈ reconLoopG p none frags →
        ∃ f0 gt, G = f0 :: gt ∧ L.x = f0.transform4 ∧ L.y = f0.transform5
          ∧ (∀ fr ∈ G, fr.transform4 + fragW fr ≤ L.x + L.width)
          ∧ ∃ fr ∈ G, L.x + L.width = fr.transform4 + fragW fr)
    ∧ ((∀ f ∈ frags, 0 ≤ fragW f) → ∀ L ∈ extractPage p frags, 0 ≤ L.width) := by
  refine ⟨?_, reconLoopG_fst p frags none, (reconLoopG_flatten p frags).2, ?_, ?_⟩
  · intro L hL
    obtain ⟨Lr, _, _, _, _, ht, hne⟩ := extractPage_mem p frags L hL
    exact ⟨hne, ht ▸ normText_chain Lr.text⟩
  · intro L G hLG
    obtain ⟨f0, gt, rfl, hx, hy, hxw⟩ :=
      reconLoopG_good p frags none (by intro c g h; cases h) L G hLG
    obtain ⟨hinit, hall, hsel⟩ :=
      foldl_max_spec (fun fr => fr.transform4 + fragW fr) gt (f0.transform4 + fragW f0)
    refine ⟨f0, gt, rfl, hx, hy, ?_, ?_⟩
    · intro fr hfr
      rcases List.mem_cons.mp hfr with rfl | hfr'
      · rw [hxw]
        exact hinit
      · rw [hxw]
        exact hall fr hfr'
    · rcases hsel with h | ⟨x, hx', hfx⟩
      · exact ⟨f0, by simp, by rw [hxw]; exact h.symm ▸ rfl⟩
      · exact ⟨x, by simp [hx'], by rw [hxw]; exact hfx⟩
  · intro hpos L hL
    obtain ⟨Lr, hmem, _, _, hw, _, _⟩ := extractPage_mem p frags L hL
    have hmem' : Lr ∈ (reconLoopG p none frags).map Prod.fst := by
      rw [reconLoopG_fst p frags none]
      exact hmem
    obtain ⟨⟨Lr', G⟩, hG, hfst⟩ := List.mem_map.mp hmem'
    have hLr' : Lr' = Lr := hfst
    subst hLr'
    obtain ⟨f0, gt, rfl, hx0, _, hxw⟩ :=
      reconLoopG_good p frags none (by intro c g h; cases h) Lr' G hG
    have hf0 : f0 ∈ frags := by
      rw [← (reconLoopG_flatten p frags).2]
      exact List.mem_flatten.mpr
        ⟨f0 :: gt, List.mem_map.mpr ⟨(Lr', f0 :: gt), hG, rfl⟩, by simp⟩
    have h1 : Lr'.x ≤ Lr'.x + Lr'.width := by
      rw [hxw]
      calc Lr'.x = f0.transform4 := hx0
        _ ≤ f0.transform4 + fragW f0 := le_add_of_nonneg_right (hpos f0 hf0)
        _ ≤ maxRightEdge f0 gt :=
          (foldl_max_spec (fun fr => fr.transform4 + fragW fr) gt _).1
    rw [hw]
    exact (le_add_iff_nonneg_right _).mp h1

theorem claim_C7_witness : (0 : ℤ) ≤ wExtractedLine.width :=
  (claim_C7 1 wFrags).2.2.2.2 (by decide) wExtractedLine (by decide)
